import Mathlib

/-!
Verification of the fork-join parallel-algorithms header
`sph/pbs_mathlib/include/detail/parallel-inl.h`.

The header's `schedule` runs every task inline (`fcn()` is called directly), so
every primitive in the file has deterministic sequential semantics; the
embedding below is a direct functional translation of that semantics.
Iterators are modelled as offsets into Lean lists, `size_t`/`unsigned int`
values as `Nat` (no subtraction in the source underflows on the guarded paths,
and the quantities involved stay far below the wrap-around range), and the
signed iterator difference used by `parallelFill` as `Int`.
-/

set_option maxHeartbeats 1000000

namespace PbsParallel

/-- ExecutionPolicy enumeration `{kSerial, kParallel}` from the headers
(declared outside parallel-inl.h but fixed by its uses there). -/
inductive ExecutionPolicy
  | kSerial
  | kParallel
  deriving DecidableEq, Repr

/-- Modelled from the spec: `maxNumberOfThreads()` is declared in constants.h,
which is not part of src/; the spec describes it as a parameterless environment
query whose result 0 means "unknown".  It is modelled as the explicit
parameter `hint`, universally quantified in every theorem.  This definition
embeds the resolution expression
`(policy == ExecutionPolicy::kParallel) ? (numThreadsHint == 0u ? 8u : numThreadsHint) : 1`
shared by `parallelRangeFor`, `parallelReduce` and `parallelSort`. -/
def resolveNumThreads (policy : ExecutionPolicy) (hint : Nat) : Nat :=
  match policy with
  | ExecutionPolicy.kParallel => if hint = 0 then 8 else hint
  | ExecutionPolicy.kSerial => 1

/-- Embeds `(IndexType)std::round(n / static_cast<double>(numThreads))` at the
nonnegative integral arguments the header uses: round-half-away-from-zero of
the exact rational `n / t` (the `double` quotient is exact at the magnitudes
this partition arithmetic is exercised with). -/
def roundDiv (n t : Nat) : Nat := (2 * n + t) / (2 * t)

/-- Embeds the loop `for (auto i = start; i < end; ++i)` of `parallelFor`:
the list of indices the loop passes to `func`, in iteration order. -/
def forRange (s e : Nat) : List Nat :=
  if s < e then s :: forRange (s + 1) e else []
termination_by e - s
decreasing_by omega

/-- Embeds `parallelFor(start, end, func, policy)` (the per-index 1-D form,
lines 129-147), returning the list of indices on which `func` is invoked.
After the `start > end` guard, both policy branches run the identical loop
`for (auto i = start; i < end; ++i) func(i);` (the OpenMP pragma on the
parallel branch affects scheduling only, not the visited index set), so the
model does not branch on `policy`; the unused `hint` parameter stands for the
environment's thread count, which the loop never consults. -/
def parallelForCalls (hint : Nat) (policy : ExecutionPolicy) (s e : Nat) :
    List Nat :=
  if s > e then [] else forRange s e

/-- Embeds the partition loop shared by `parallelRangeFor` (lines 172-181) and
`parallelReduce` (lines 276-287):

  i1 = start; i2 = min(start + slice, end);
  for (i = 0; i + 1 < numThreads && i1 < end; ++i) { emit (i1, i2); i1 = i2; i2 = min(i2 + slice, end); }
  if (i1 < end) emit (i1, end);

`rem` is the number of loop iterations still allowed, i.e. `numThreads - 1`
minus the iterations already performed; each emitted pair is the argument pair
passed to one scheduled task. -/
def partitionFrom (slice e : Nat) : Nat → Nat → List (Nat × Nat)
  | 0, i1 => if i1 < e then [(i1, e)] else []
  | rem + 1, i1 =>
    if i1 < e then
      (i1, min (i1 + slice) e) :: partitionFrom slice e rem (min (i1 + slice) e)
    else []

/-- Embeds `parallelRangeFor(start, end, func, policy)` (1-D form, lines
150-189), returning the ordered list of `(i1, i2)` argument pairs passed to
`func`: the `start > end` guard, the worker-count resolution, the slice
computation `slice = max((IndexType)std::round(n / (double)numThreads), 1)`
with `n = end - start + 1`, and the partition loop. -/
def parallelRangeForCalls (hint : Nat) (policy : ExecutionPolicy) (s e : Nat) :
    List (Nat × Nat) :=
  if s > e then []
  else
    let t := resolveNumThreads policy hint
    let slice := max (roundDiv (e - s + 1) t) 1
    partitionFrom slice e (t - 1) s

/-- Embeds `parallelFill(begin, end, value, policy)` (lines 115-126) on a list
whose positions `b` and `eo` play the two iterators: `diff = end - begin` is
the signed iterator difference; when `diff <= 0` the function returns with the
container untouched, otherwise it runs
`parallelFor(kZeroSize, size, [](i){ begin[i] = value; }, policy)` with
`size = (size_t)diff`. -/
def parallelFill {α : Type} (hint : Nat) (policy : ExecutionPolicy)
    (arr : List α) (b eo : Nat) (v : α) : List α :=
  if (eo : Int) - (b : Int) ≤ 0 then arr
  else
    (parallelForCalls hint policy 0 (eo - b)).foldl
      (fun acc i => acc.set (b + i) v) arr

/-- Embeds `parallelReduce(start, end, identity, func, reduce, policy)`
(lines 244-303): the `start > end` early return of `identity`; the shared
worker-count and slice computation; the `results` vector of `numThreads`
copies of `identity` whose entries `0 .. #partitions - 1` are overwritten by
`results[tid] = func(k1, k2, identity)` (here built as a map over the
partition list followed by the untouched tail of identity slots, which is
well-formed because the partition count never exceeds `numThreads`); and the
sequential gather `for (val : results) finalResult = reduce(val, finalResult)`
seeded with `identity`. -/
def parallelReduce {V : Type} (hint : Nat) (policy : ExecutionPolicy)
    (s e : Nat) (idv : V) (f : Nat → Nat → V → V) (red : V → V → V) : V :=
  if s > e then idv
  else
    let t := resolveNumThreads policy hint
    let slice := max (roundDiv (e - s + 1) t) 1
    let ranges := partitionFrom slice e (t - 1) s
    let results := ranges.map (fun p => f p.1 p.2 idv) ++
      List.replicate (t - ranges.length) idv
    results.foldl (fun acc v => red v acc) idv

/-- Single insertion step of the model of `std::sort` (see `stdSort`):
insert `x` into an already-sorted list, placing it after any element it does
not strictly precede. -/
def stdSortInsert {α : Type} (cmp : α → α → Bool) (x : α) : List α → List α
  | [] => [x]
  | y :: ys => if cmp x y then x :: y :: ys else y :: stdSortInsert cmp x ys

/-- Model of `std::sort(a, a + size, compareFunction)` (line 85).  The C++
standard guarantees only a permutation of the range with no element strictly
preceding its predecessor; it is modelled as left-to-right insertion sort,
which is exactly what libstdc++'s `std::sort` performs on the short ranges
arising in this header's base cases, and which satisfies that contract for
every strict weak order. -/
def stdSort {α : Type} (cmp : α → α → Bool) (l : List α) : List α :=
  l.foldl (fun acc x => stdSortInsert cmp x acc) []

/-- Embeds the two-pointer loops of `merge` (lines 52-73) on the two halves
`a[0 .. size/2)` and `a[size/2 .. size)` presented as lists: while both are
nonempty, `if (compareFunction(a[i1], a[i2]))` emits the left head, else the
right head; afterwards the remaining half is drained in order. -/
def mergeLoop {α : Type} (cmp : α → α → Bool) : List α → List α → List α
  | [], ys => ys
  | x :: xs, [] => x :: xs
  | x :: xs, y :: ys =>
    if cmp x y then x :: mergeLoop cmp xs (y :: ys)
    else y :: mergeLoop cmp (x :: xs) ys
termination_by xs ys => xs.length + ys.length
decreasing_by all_goals simp_arith

/-- Embeds `merge(a, size, temp, compareFunction)` (lines 44-77): the index
`i1` walks `[0, size/2)` and `i2` walks `[size/2, size)`, i.e. the two-pointer
loop runs on the two halves of `a` split at `size / 2`; the merged sequence is
written to `temp[0 .. size)` and then copied back over `a` by the trailing
`parallelFor`, so the range afterwards holds exactly the merged sequence. -/
def merge {α : Type} (cmp : α → α → Bool) (a : List α) : List α :=
  mergeLoop cmp (a.take (a.length / 2)) (a.drop (a.length / 2))

/-- Embeds `parallelMergeSort(a, size, temp, numThreads, compareFunction)`
(lines 79-113) as explicit state passing on the pair (array view, scratch
view), both of length `size`.  `numThreads == 1`: `std::sort` over the whole
sub-array, scratch untouched.  `numThreads > 1`: the two recursive calls sort
`a[0 .. size/2)` with scratch `temp[0 .. size/2)` and budget `numThreads / 2`,
and `a[size/2 .. size)` with scratch `temp + size/2` and budget
`numThreads - numThreads / 2` (the tasks run synchronously, via `schedule`,
on disjoint views, so sequencing them loses nothing); then
`merge(a, size, temp, compareFunction)` overwrites all of `temp` with the
merged sequence and copies it back over `a`.  Any other budget (i.e.
`numThreads == 0`) falls through both branches and returns the state
unchanged. -/
def parallelMergeSortT {α : Type} (cmp : α → α → Bool) :
    Nat → List α → List α → List α × List α
  | t, a, temp =>
    if t = 1 then (stdSort cmp a, temp)
    else if h : 1 < t then
      let k := a.length / 2
      let L := parallelMergeSortT cmp (t / 2) (a.take k) (temp.take k)
      let R := parallelMergeSortT cmp (t - t / 2) (a.drop k) (temp.drop k)
      let m := merge cmp (L.1 ++ R.1)
      (m, m)
    else (a, temp)
termination_by t _ _ => t
decreasing_by all_goals omega

/-- Control-flow events of one `parallelMergeSort` invocation.  The branch
taken at lines 84-112 depends only on `numThreads`, never on the array
contents or the comparator, so the event trace is a function of the budget and
the sub-array size alone. -/
inductive SortEvent
  | seqSort (size : Nat)
  | mergeStep (size : Nat)
  deriving DecidableEq, Repr

/-- Trace of `parallelMergeSort` control flow: `seqSort size` records the
`std::sort` base case executing over a sub-array of length `size`, and
`mergeStep size` records one `merge(a, size, temp, ...)` call; the recursive
branch descends into `(numThreads / 2, size / 2)` and then
`(numThreads - numThreads / 2, size - size / 2)` before merging, exactly as
lines 96-111 do. -/
def mergeSortTrace : Nat → Nat → List SortEvent
  | t, size =>
    if t = 1 then [SortEvent.seqSort size]
    else if h : 1 < t then
      mergeSortTrace (t / 2) (size / 2) ++
        mergeSortTrace (t - t / 2) (size - size / 2) ++
        [SortEvent.mergeStep size]
    else []
termination_by t _ => t
decreasing_by all_goals omega

/-- Embeds `parallelSort(begin, end, compareFunction, policy)` (lines 305-327)
on a list whose positions `b` and `eo` play the two iterators: the
`end < begin` guard returns with the container untouched; otherwise
`size = end - begin`, a scratch vector of `size` value-initialized elements is
allocated, the worker count is resolved, and
`parallelMergeSort(begin, size, temp.begin(), numThreads, compareFunction)`
rewrites the range `[b, eo)` in place. -/
def parallelSortRange {α : Type} [Inhabited α] (cmp : α → α → Bool)
    (policy : ExecutionPolicy) (hint : Nat) (arr : List α) (b eo : Nat) :
    List α :=
  if eo < b then arr
  else
    let size := eo - b
    let t := resolveNumThreads policy hint
    arr.take b ++
      (parallelMergeSortT cmp t ((arr.drop b).take size)
        (List.replicate size default)).1 ++
      arr.drop eo

/-- The header's `parallelSort` applied to a whole container, i.e.
`parallelSortRange` at `begin = 0`, `end = length` — the way the sort is
consumed by the rest of the repository. -/
def parallelSort {α : Type} [Inhabited α] (cmp : α → α → Bool)
    (policy : ExecutionPolicy) (hint : Nat) (l : List α) : List α :=
  parallelSortRange cmp policy hint l 0 l.length

/-- Comparator on pairs of naturals that orders by first component only;
distinct pairs with equal first components tie under it.  Used to exhibit the
tie-breaking behaviour of `merge`. -/
def pairCmp (p q : Nat × Nat) : Bool := p.1 < q.1

/-- Comparator on `Fin 3` used in concrete witnesses. -/
def finCmp (a b : Fin 3) : Bool := a < b

/-- Strict weak order on a Boolean comparator: irreflexive, transitive, and
satisfying the comparison split `cmp a c → cmp a b ∨ cmp b c` (an equivalent
of transitivity of incomparability). -/
structure StrictWeakOrder {α : Type} (cmp : α → α → Bool) : Prop where
  irrefl : ∀ a, cmp a a = false
  trans : ∀ a b c, cmp a b = true → cmp b c = true → cmp a c = true
  split : ∀ a b c, cmp a c = true → cmp a b = true ∨ cmp b c = true

/-- Contiguous-decomposition predicate: `coversB s e ps` holds when the pairs
in `ps` are nonempty ranges, each begins exactly where its predecessor ends,
the first begins at `s`, and the last ends at `e` (with `ps = []` requiring
`s = e`). -/
def coversB : Nat → Nat → List (Nat × Nat) → Bool
  | s, e, [] => s == e
  | s, e, (b, c) :: rest => b == s && decide (s < c) && coversB c e rest

/-! Helper lemmas about strict weak orders. -/

theorem StrictWeakOrder.asymm {α : Type} {cmp : α → α → Bool}
    (h : StrictWeakOrder cmp) (a b : α) (hab : cmp a b = true) :
    cmp b a = false := by
  cases hba : cmp b a with
  | false => rfl
  | true => have := h.trans a b a hab hba; rw [h.irrefl a] at this; cases this

theorem StrictWeakOrder.le_trans {α : Type} {cmp : α → α → Bool}
    (h : StrictWeakOrder cmp) (a b c : α) (hba : cmp b a = false)
    (hcb : cmp c b = false) : cmp c a = false := by
  cases hca : cmp c a with
  | false => rfl
  | true =>
    rcases h.split c b a hca with h1 | h1
    · rw [hcb] at h1; cases h1
    · rw [hba] at h1; cases h1

/-! Helper lemmas about the two-pointer merge loop. -/

theorem mergeLoop_perm {α : Type} (cmp : α → α → Bool) :
    ∀ xs ys : List α, (mergeLoop cmp xs ys).Perm (xs ++ ys) := by
  intro xs
  induction xs with
  | nil => intro ys; simp [mergeLoop]
  | cons x xs ihx =>
    intro ys
    induction ys with
    | nil => simp [mergeLoop]
    | cons y ys ihy =>
      rw [mergeLoop]
      cases hxy : cmp x y with
      | true =>
        rw [if_pos rfl]
        exact (ihx (y :: ys)).cons x
      | false =>
        rw [if_neg Bool.false_ne_true]
        exact (ihy.cons y).trans List.perm_middle.symm

theorem mergeLoop_length {α : Type} (cmp : α → α → Bool) (xs ys : List α) :
    (mergeLoop cmp xs ys).length = xs.length + ys.length := by
  have := (mergeLoop_perm cmp xs ys).length_eq
  simpa using this

theorem mergeLoop_pairwise {α : Type} {cmp : α → α → Bool}
    (hA : ∀ a b, cmp a b = true → cmp b a = false)
    (hT : ∀ a b c, cmp b a = false → cmp c b = false → cmp c a = false) :
    ∀ xs ys : List α,
      xs.Pairwise (fun u v => cmp v u = false) →
      ys.Pairwise (fun u v => cmp v u = false) →
      (mergeLoop cmp xs ys).Pairwise (fun u v => cmp v u = false) := by
  intro xs
  induction xs with
  | nil => intro ys _ hys; simpa [mergeLoop] using hys
  | cons x xs ihx =>
    intro ys
    induction ys with
    | nil => intro hxs _; simpa [mergeLoop] using hxs
    | cons y ys ihy =>
      intro hxs hys
      rw [List.pairwise_cons] at hxs hys
      rw [mergeLoop]
      cases hxy : cmp x y with
      | true =>
        rw [if_pos rfl]
        rw [List.pairwise_cons]
        constructor
        · intro b hb
          have hb' : b ∈ xs ++ y :: ys :=
            (mergeLoop_perm cmp xs (y :: ys)).mem_iff.mp hb
          rcases List.mem_append.1 hb' with hbx | hby
          · exact hxs.1 b hbx
          · rcases List.mem_cons.1 hby with rfl | hby'
            · exact hA x b hxy
            · exact hT x y b (hA x y hxy) (hys.1 b hby')
        · exact ihx (y :: ys) hxs.2 (List.pairwise_cons.2 hys)
      | false =>
        rw [if_neg Bool.false_ne_true]
        rw [List.pairwise_cons]
        constructor
        · intro b hb
          have hb' : b ∈ (x :: xs) ++ ys :=
            (mergeLoop_perm cmp (x :: xs) ys).mem_iff.mp hb
          rcases List.mem_append.1 hb' with hbx | hby
          · rcases List.mem_cons.1 hbx with rfl | hbx'
            · exact hxy
            · exact hT y x b hxy (hxs.1 b hbx')
          · exact hys.1 b hby
        · exact ihy (List.pairwise_cons.2 hxs) hys.2

theorem merge_append {α : Type} (cmp : α → α → Bool) (u v : List α)
    (h : (u ++ v).length / 2 = u.length) :
    merge cmp (u ++ v) = mergeLoop cmp u v := by
  unfold merge
  rw [h, List.take_left' rfl, List.drop_left' rfl]

/-! Helper lemmas about the model of std::sort. -/

theorem stdSortInsert_perm {α : Type} (cmp : α → α → Bool) (x : α) :
    ∀ ys : List α, (stdSortInsert cmp x ys).Perm (x :: ys) := by
  intro ys
  induction ys with
  | nil => simp [stdSortInsert]
  | cons y ys ih =>
    rw [stdSortInsert]
    cases hxy : cmp x y with
    | true => rw [if_pos rfl]
    | false =>
      rw [if_neg Bool.false_ne_true]
      exact (ih.cons y).trans (List.Perm.swap x y ys)

theorem stdSortInsert_pairwise {α : Type} {cmp : α → α → Bool}
    (hA : ∀ a b, cmp a b = true → cmp b a = false)
    (hT : ∀ a b c, cmp b a = false → cmp c b = false → cmp c a = false)
    (x : α) :
    ∀ ys : List α, ys.Pairwise (fun u v => cmp v u = false) →
      (stdSortInsert cmp x ys).Pairwise (fun u v => cmp v u = false) := by
  intro ys
  induction ys with
  | nil => intro _; simp [stdSortInsert]
  | cons y ys ih =>
    intro hys
    rw [List.pairwise_cons] at hys
    rw [stdSortInsert]
    cases hxy : cmp x y with
    | true =>
      rw [if_pos rfl]
      rw [List.pairwise_cons]
      refine ⟨?_, List.pairwise_cons.2 hys⟩
      intro b hb
      rcases List.mem_cons.1 hb with rfl | hb'
      · exact hA x b hxy
      · exact hT x y b (hA x y hxy) (hys.1 b hb')
    | false =>
      rw [if_neg Bool.false_ne_true]
      rw [List.pairwise_cons]
      constructor
      · intro b hb
        have hb' : b ∈ x :: ys := (stdSortInsert_perm cmp x ys).mem_iff.mp hb
        rcases List.mem_cons.1 hb' with rfl | hb''
        · exact hxy
        · exact hys.1 b hb''
      · exact ih hys.2

theorem stdSort_aux_perm {α : Type} (cmp : α → α → Bool) :
    ∀ (l acc : List α),
      (l.foldl (fun acc x => stdSortInsert cmp x acc) acc).Perm (acc ++ l) := by
  intro l
  induction l with
  | nil => intro acc; simp
  | cons x xs ih =>
    intro acc
    show (xs.foldl (fun acc x => stdSortInsert cmp x acc)
      (stdSortInsert cmp x acc)).Perm (acc ++ x :: xs)
    refine (ih (stdSortInsert cmp x acc)).trans ?_
    refine (((stdSortInsert_perm cmp x acc).append (List.Perm.refl xs)).trans ?_)
    exact List.perm_middle.symm

theorem stdSort_perm {α : Type} (cmp : α → α → Bool) (l : List α) :
    (stdSort cmp l).Perm l := by
  have := stdSort_aux_perm cmp l []
  simpa [stdSort] using this

theorem stdSort_pairwise {α : Type} {cmp : α → α → Bool}
    (hA : ∀ a b, cmp a b = true → cmp b a = false)
    (hT : ∀ a b c, cmp b a = false → cmp c b = false → cmp c a = false)
    (l : List α) :
    (stdSort cmp l).Pairwise (fun u v => cmp v u = false) := by
  have aux : ∀ (m acc : List α), acc.Pairwise (fun u v => cmp v u = false) →
      (m.foldl (fun acc x => stdSortInsert cmp x acc) acc).Pairwise
        (fun u v => cmp v u = false) := by
    intro m
    induction m with
    | nil => intro acc h; simpa using h
    | cons x xs ih =>
      intro acc h
      exact ih (stdSortInsert cmp x acc) (stdSortInsert_pairwise hA hT x acc h)
  exact aux l [] (by simp)

/-! Unfolding lemmas for the recursive merge sort. -/

theorem parallelMergeSortT_zero {α : Type} (cmp : α → α → Bool)
    (a temp : List α) : parallelMergeSortT cmp 0 a temp = (a, temp) := by
  rw [parallelMergeSortT]
  simp

theorem parallelMergeSortT_one {α : Type} (cmp : α → α → Bool)
    (a temp : List α) :
    parallelMergeSortT cmp 1 a temp = (stdSort cmp a, temp) := by
  rw [parallelMergeSortT]
  simp

theorem parallelMergeSortT_rec {α : Type} (cmp : α → α → Bool) (t : Nat)
    (h : 1 < t) (a temp : List α) :
    parallelMergeSortT cmp t a temp =
      (merge cmp
        ((parallelMergeSortT cmp (t / 2) (a.take (a.length / 2))
            (temp.take (a.length / 2))).1 ++
         (parallelMergeSortT cmp (t - t / 2) (a.drop (a.length / 2))
            (temp.drop (a.length / 2))).1),
       merge cmp
        ((parallelMergeSortT cmp (t / 2) (a.take (a.length / 2))
            (temp.take (a.length / 2))).1 ++
         (parallelMergeSortT cmp (t - t / 2) (a.drop (a.length / 2))
            (temp.drop (a.length / 2))).1)) := by
  rw [parallelMergeSortT]
  rw [if_neg (by omega), dif_pos h]

theorem resolveNumThreads_pos (policy : ExecutionPolicy) (hint : Nat) :
    1 ≤ resolveNumThreads policy hint := by
  cases policy with
  | kSerial => simp [resolveNumThreads]
  | kParallel =>
    simp only [resolveNumThreads]
    by_cases h : hint = 0 <;> simp [h] <;> omega

/-- Core correctness of `parallelMergeSort` for every worker budget of at
least one: the sorted view is a permutation of the input view and has no
inversion under the comparator. -/
theorem parallelMergeSortT_correct {α : Type} {cmp : α → α → Bool}
    (hA : ∀ a b, cmp a b = true → cmp b a = false)
    (hT : ∀ a b c, cmp b a = false → cmp c b = false → cmp c a = false) :
    ∀ t : Nat, 1 ≤ t → ∀ a temp : List α,
      (parallelMergeSortT cmp t a temp).1.Perm a ∧
        (parallelMergeSortT cmp t a temp).1.Pairwise
          (fun u v => cmp v u = false) := by
  intro t
  induction t using Nat.strong_induction_on with
  | _ t ih =>
    intro ht a temp
    by_cases h1 : t = 1
    · subst h1
      rw [parallelMergeSortT_one]
      exact ⟨stdSort_perm cmp a, stdSort_pairwise hA hT a⟩
    · have h2 : 1 < t := by omega
      rw [parallelMergeSortT_rec cmp t h2 a temp]
      have hL := ih (t / 2) (by omega) (by omega) (a.take (a.length / 2))
        (temp.take (a.length / 2))
      have hR := ih (t - t / 2) (by omega) (by omega) (a.drop (a.length / 2))
        (temp.drop (a.length / 2))
      set L := (parallelMergeSortT cmp (t / 2) (a.take (a.length / 2))
        (temp.take (a.length / 2))).1 with hLdef
      set R := (parallelMergeSortT cmp (t - t / 2) (a.drop (a.length / 2))
        (temp.drop (a.length / 2))).1 with hRdef
      have hLlen : L.length = a.length / 2 := by
        rw [hL.1.length_eq, List.length_take]
        exact Nat.min_eq_left (Nat.div_le_self _ _)
      have hRlen : R.length = a.length - a.length / 2 := by
        rw [hR.1.length_eq, List.length_drop]
      have hme : merge cmp (L ++ R) = mergeLoop cmp L R := by
        refine merge_append cmp L R ?_
        rw [List.length_append, hLlen, hRlen]
        omega
      simp only [hme]
      constructor
      · refine (mergeLoop_perm cmp L R).trans ?_
        refine (hL.1.append hR.1).trans ?_
        rw [List.take_append_drop]
      · exact mergeLoop_pairwise hA hT L R hL.2 hR.2

/-- Unfolds the whole-container `parallelSort` to the recursive merge sort at
the resolved worker count. -/
theorem parallelSort_eq {α : Type} [Inhabited α] (cmp : α → α → Bool)
    (policy : ExecutionPolicy) (hint : Nat) (l : List α) :
    parallelSort cmp policy hint l =
      (parallelMergeSortT cmp (resolveNumThreads policy hint) l
        (List.replicate l.length default)).1 := by
  unfold parallelSort parallelSortRange
  rw [if_neg (by omega)]
  simp

/-! Helper lemmas about the partition loop. -/

theorem partitionFrom_of_ge (slice e rem i1 : Nat) (h : e ≤ i1) :
    partitionFrom slice e rem i1 = [] := by
  have h' : ¬ i1 < e := by omega
  cases rem <;> simp [partitionFrom, h']

theorem partitionFrom_length_le (slice e : Nat) :
    ∀ rem i1, (partitionFrom slice e rem i1).length ≤ rem + 1 := by
  intro rem
  induction rem with
  | zero =>
    intro i1
    by_cases h : i1 < e <;> simp [partitionFrom, h]
  | succ k ih =>
    intro i1
    by_cases h : i1 < e
    · simp only [partitionFrom, if_pos h, List.length_cons]
      have := ih (min (i1 + slice) e)
      omega
    · simp [partitionFrom, h]

theorem coversB_le : ∀ (ps : List (Nat × Nat)) (s e : Nat),
    coversB s e ps = true → s ≤ e := by
  intro ps
  induction ps with
  | nil => intro s e h; simp [coversB] at h; omega
  | cons q rest ih =>
    intro s e h
    obtain ⟨b, c⟩ := q
    simp [coversB] at h
    obtain ⟨⟨hb, hsc⟩, hrest⟩ := h
    have := ih c e hrest
    omega

theorem coversB_partitionFrom (slice e : Nat) (hs : 1 ≤ slice) :
    ∀ rem i1, i1 ≤ e → coversB i1 e (partitionFrom slice e rem i1) = true := by
  intro rem
  induction rem with
  | zero =>
    intro i1 hi
    by_cases h : i1 < e
    · simp [partitionFrom, h, coversB]
    · simp [partitionFrom, h, coversB]
      omega
  | succ k ih =>
    intro i1 hi
    by_cases h : i1 < e
    · have hmin : min (i1 + slice) e ≤ e := Nat.min_le_right _ _
      simp [partitionFrom, h, coversB, ih (min (i1 + slice) e) hmin]
      omega
    · simp [partitionFrom, h, coversB]
      omega

theorem coversB_mem_lb : ∀ (ps : List (Nat × Nat)) (s e : Nat),
    coversB s e ps = true → ∀ p ∈ ps, s ≤ p.1 ∧ p.2 ≤ e := by
  intro ps
  induction ps with
  | nil => intro s e h p hp; simp at hp
  | cons q rest ih =>
    intro s e h p hp
    obtain ⟨b, c⟩ := q
    simp [coversB] at h
    obtain ⟨⟨hb, hsc⟩, hrest⟩ := h
    rcases List.mem_cons.1 hp with rfl | hp'
    · refine ⟨by omega, ?_⟩
      exact coversB_le rest c e hrest
    · have h3 := ih c e hrest p hp'
      exact ⟨by omega, h3.2⟩

theorem coversB_pairwise : ∀ (ps : List (Nat × Nat)) (s e : Nat),
    coversB s e ps = true → ps.Pairwise (fun p q => p.2 ≤ q.1) := by
  intro ps
  induction ps with
  | nil => intro s e _; simp
  | cons q rest ih =>
    intro s e h
    obtain ⟨b, c⟩ := q
    simp [coversB] at h
    obtain ⟨⟨hb, hsc⟩, hrest⟩ := h
    rw [List.pairwise_cons]
    exact ⟨fun p hp => (coversB_mem_lb rest c e hrest p hp).1, ih c e hrest⟩

theorem coversB_mem_iff : ∀ (ps : List (Nat × Nat)) (s e : Nat),
    coversB s e ps = true →
    ∀ i, (∃ p ∈ ps, p.1 ≤ i ∧ i < p.2) ↔ (s ≤ i ∧ i < e) := by
  intro ps
  induction ps with
  | nil =>
    intro s e h i
    simp [coversB] at h
    simp
    omega
  | cons q rest ih =>
    intro s e h i
    obtain ⟨b, c⟩ := q
    simp [coversB] at h
    obtain ⟨⟨hb, hsc⟩, hrest⟩ := h
    subst hb
    have hce := coversB_le rest c e hrest
    constructor
    · rintro ⟨p, hp, h1, h2⟩
      rcases List.mem_cons.1 hp with rfl | hp'
      · simp only at h1 h2
        omega
      · have := (ih c e hrest i).1 ⟨p, hp', h1, h2⟩
        omega
    · rintro ⟨h1, h2⟩
      by_cases hic : i < c
      · exact ⟨(b, c), List.mem_cons_self _ _, by simpa using h1, hic⟩
      · obtain ⟨p, hp, hp1, hp2⟩ := (ih c e hrest i).2 ⟨by omega, h2⟩
        exact ⟨p, List.mem_cons_of_mem _ hp, hp1, hp2⟩

theorem coversB_nil_iff (ps : List (Nat × Nat)) (s e : Nat)
    (h : coversB s e ps = true) : ps = [] ↔ s = e := by
  cases ps with
  | nil => simp [coversB] at h; simp [h]
  | cons q rest =>
    obtain ⟨b, c⟩ := q
    simp [coversB] at h
    obtain ⟨⟨hb, hsc⟩, hrest⟩ := h
    have hce := coversB_le rest c e hrest
    simp
    omega

theorem coversB_getLast : ∀ (ps : List (Nat × Nat)) (s e : Nat),
    coversB s e ps = true → ∀ p, ps.getLast? = some p → p.2 = e := by
  intro ps
  induction ps with
  | nil => intro s e _ p hp; simp at hp
  | cons q rest ih =>
    intro s e h p hp
    obtain ⟨b, c⟩ := q
    simp [coversB] at h
    obtain ⟨⟨hb, hsc⟩, hrest⟩ := h
    cases rest with
    | nil =>
      simp at hp
      simp [coversB] at hrest
      subst hp
      simpa using hrest
    | cons q2 rest2 =>
      rw [List.getLast?_cons_cons] at hp
      exact ih c e hrest p hp

/-! Helper lemmas for the loop of the per-index parallelFor and for the
gather step of parallelReduce. -/

theorem forRange_eq : ∀ (n s e : Nat), e - s = n →
    forRange s e = List.range' s n := by
  intro n
  induction n with
  | zero =>
    intro s e h
    rw [forRange, if_neg (by omega)]
    rfl
  | succ k ih =>
    intro s e h
    rw [forRange, if_pos (by omega), List.range'_succ, ih (s + 1) e (by omega)]

theorem foldl_replicate_fix {V : Type} (red : V → V → V) (idv : V)
    (hred : red idv idv = idv) :
    ∀ n, (List.replicate n idv).foldl (fun acc v => red v acc) idv = idv := by
  intro n
  induction n with
  | zero => rfl
  | succ k ih =>
    rw [List.replicate_succ]
    show (List.replicate k idv).foldl (fun acc v => red v acc)
      (red idv idv) = idv
    rw [hred]
    exact ih

/-- C1: for every input range, every comparator that is a strict weak order,
both execution policies and every environment thread hint, `parallelSort`
terminates (the embedding is a total function) with the range holding a
permutation of its original contents that is non-decreasing under the
comparator (no element strictly precedes an earlier one). -/
theorem parallelSort_sorted_perm {α : Type} [Inhabited α] (cmp : α → α → Bool)
    (hswo : StrictWeakOrder cmp) (policy : ExecutionPolicy) (hint : Nat)
    (l : List α) :
    (parallelSort cmp policy hint l).Perm l ∧
      (parallelSort cmp policy hint l).Pairwise
        (fun u v => cmp v u = false) := by
  rw [parallelSort_eq]
  exact parallelMergeSortT_correct hswo.asymm hswo.le_trans
    (resolveNumThreads policy hint) (resolveNumThreads_pos policy hint) l _

/-- Witness for C1 at a concrete comparator, policy, hint and input. -/
theorem parallelSort_sorted_perm_witness :
    (parallelSort finCmp ExecutionPolicy.kParallel 8
        ([2, 0, 1] : List (Fin 3))).Perm [2, 0, 1] ∧
      (parallelSort finCmp ExecutionPolicy.kParallel 8
        ([2, 0, 1] : List (Fin 3))).Pairwise (fun u v => finCmp v u = false) :=
  parallelSort_sorted_perm finCmp ⟨by decide, by decide, by decide⟩
    ExecutionPolicy.kParallel 8 [2, 0, 1]

/-- C2 counterexample: at the concrete input where `merge` sees the two
halves `[(0,1)]` and `[(0,2)]`, the two heads tie under `pairCmp` (neither is
strictly less), yet the merged output starts with the RIGHT-half element
`(0,2)`, not the left-half element as the claim states. -/
theorem merge_tie_counterexample :
    pairCmp (0, 1) (0, 2) = false ∧ pairCmp (0, 2) (0, 1) = false ∧
    merge pairCmp [(0, 1), (0, 2)] = [(0, 2), (0, 1)] ∧
    merge pairCmp [(0, 1), (0, 2)] ≠ [(0, 1), (0, 2)] := by
  refine ⟨rfl, rfl, ?_, ?_⟩ <;> simp [merge, mergeLoop, pairCmp]

/-- C2 corrected: in the merge step, whenever the current left-half element
and right-half element tie (neither strictly less under the comparator), the
element from the RIGHT half is emitted first, because the loop takes the left
element only when it is strictly less (`if (compareFunction(a[i1], a[i2]))`). -/
theorem mergeLoop_tie_emits_right {α : Type} (cmp : α → α → Bool)
    (x y : α) (xs ys : List α) (hxy : cmp x y = false)
    (hyx : cmp y x = false) :
    mergeLoop cmp (x :: xs) (y :: ys) = y :: mergeLoop cmp (x :: xs) ys := by
  rw [mergeLoop]
  simp [hxy]

/-- Witness for the corrected C2 at a concrete tied pair. -/
theorem mergeLoop_tie_emits_right_witness :
    mergeLoop pairCmp [(0, 1)] [(0, 2)] = [(0, 2), (0, 1)] := by
  rw [mergeLoop_tie_emits_right pairCmp (0, 1) (0, 2) [] [] (by decide)
    (by decide)]
  simp [mergeLoop]

/-- C4 counterexample: with worker budget 2 and sub-array size 1 the claim
predicts the sequential base case (no split, no merge), but the code takes
the recursive branch, spawning children of sizes 0 and 1 and merging; and
with budget 0 the claim predicts a sequential sort while the code does
nothing at all. -/
theorem mergeSortTrace_base_counterexample :
    mergeSortTrace 2 1 ≠ [SortEvent.seqSort 1] ∧
    mergeSortTrace 2 1 =
      [SortEvent.seqSort 0, SortEvent.seqSort 1, SortEvent.mergeStep 1] ∧
    mergeSortTrace 0 3 ≠ [SortEvent.seqSort 3] ∧
    mergeSortTrace 0 3 = [] := by
  refine ⟨?_, ?_, ?_, ?_⟩ <;> simp [mergeSortTrace]

/-- C4 corrected: the recursion reaches the sequential base case exactly when
`numThreads = 1` (the sub-array size plays no part in the branch); a budget of
0 performs nothing at all; and in the recursive case (`numThreads ≥ 2`) the
left child receives `numThreads / 2` workers on the first `size / 2` elements
and the right child `numThreads - numThreads / 2` workers on the remaining
`size - size / 2`, followed by one merge of the whole sub-array. -/
theorem mergeSortTrace_base_iff (t size : Nat) :
    (mergeSortTrace t size = [SortEvent.seqSort size] ↔ t = 1) ∧
    mergeSortTrace 0 size = [] ∧
    (2 ≤ t → mergeSortTrace t size =
      mergeSortTrace (t / 2) (size / 2) ++
        mergeSortTrace (t - t / 2) (size - size / 2) ++
        [SortEvent.mergeStep size]) := by
  refine ⟨⟨?_, ?_⟩, ?_, ?_⟩
  · intro h
    match t, h with
    | 0, h => rw [mergeSortTrace] at h; simp at h
    | 1, h => rfl
    | t2 + 2, h =>
      rw [mergeSortTrace, if_neg (by omega), dif_pos (by omega)] at h
      have hm : SortEvent.mergeStep size ∈
          ([SortEvent.seqSort size] : List SortEvent) := by
        rw [← h]; simp
      simp at hm
  · intro h; subst h; rw [mergeSortTrace]; simp
  · rw [mergeSortTrace]; simp
  · intro h2
    rw [mergeSortTrace, if_neg (by omega), dif_pos (by omega : 1 < t)]

/-- Witness for the corrected C4: the recursive-case equation applied at
budget 2 and size 3. -/
theorem mergeSortTrace_base_iff_witness :
    mergeSortTrace 2 3 =
      mergeSortTrace 1 1 ++ mergeSortTrace 1 2 ++ [SortEvent.mergeStep 3] :=
  (mergeSortTrace_base_iff 2 3).2.2 (by decide)

/-- C10: calling `parallelMergeSort` with worker budget 0 returns with the
array view and the scratch view completely unchanged, and its control-flow
trace is empty: no sequential sort, no recursion, no merge. -/
theorem parallelMergeSort_zero_threads_noop {α : Type} (cmp : α → α → Bool)
    (a temp : List α) (size : Nat) :
    parallelMergeSortT cmp 0 a temp = (a, temp) ∧
      mergeSortTrace 0 size = [] := by
  constructor
  · exact parallelMergeSortT_zero cmp a temp
  · rw [mergeSortTrace]; simp

/-- C5 counterexample: on the two tied-but-distinct pairs `(0,1)`, `(0,2)`,
with environment hint 2, the Serial policy (worker budget 1, `std::sort`)
returns them in original order while the Parallel policy (worker budget 2,
split-and-merge with right-favouring ties) swaps them. -/
theorem parallelSort_policy_counterexample :
    parallelSort pairCmp ExecutionPolicy.kSerial 2 [(0, 1), (0, 2)] =
      [(0, 1), (0, 2)] ∧
    parallelSort pairCmp ExecutionPolicy.kParallel 2 [(0, 1), (0, 2)] =
      [(0, 2), (0, 1)] ∧
    parallelSort pairCmp ExecutionPolicy.kSerial 2 [(0, 1), (0, 2)] ≠
      parallelSort pairCmp ExecutionPolicy.kParallel 2 [(0, 1), (0, 2)] := by
  have h1 : parallelSort pairCmp ExecutionPolicy.kSerial 2 [(0, 1), (0, 2)] =
      [(0, 1), (0, 2)] := by
    rw [parallelSort_eq]
    show (parallelMergeSortT pairCmp 1 _ _).1 = _
    rw [parallelMergeSortT_one]
    simp [stdSort, stdSortInsert, pairCmp]
  have h2 : parallelSort pairCmp ExecutionPolicy.kParallel 2
      [(0, 1), (0, 2)] = [(0, 2), (0, 1)] := by
    rw [parallelSort_eq]
    show (parallelMergeSortT pairCmp 2 _ _).1 = _
    rw [parallelMergeSortT_rec pairCmp 2 (by omega)]
    simp only [List.length_cons, List.length_nil]
    rw [parallelMergeSortT_one, parallelMergeSortT_one]
    simp [merge, mergeLoop, stdSort, stdSortInsert, pairCmp]
  refine ⟨h1, h2, ?_⟩
  rw [h1, h2]
  simp

/-- C5 corrected: Serial and Parallel runs of `parallelSort` over the same
input and comparator produce identical element-for-element output whenever the
comparator is a strict weak order under which ties occur only between equal
elements (i.e. the induced non-strict order is antisymmetric); the sorted
permutation is then unique, so even the worker hints may differ between the
two runs.  Where distinct elements can tie, the placements may differ, as the
counterexample shows. -/
theorem parallelSort_policy_agree {α : Type} [Inhabited α]
    (cmp : α → α → Bool) (hswo : StrictWeakOrder cmp)
    (hanti : ∀ u v, cmp u v = false → cmp v u = false → u = v)
    (hint hint' : Nat) (l : List α) :
    parallelSort cmp ExecutionPolicy.kSerial hint l =
      parallelSort cmp ExecutionPolicy.kParallel hint' l := by
  have h1 := parallelMergeSortT_correct hswo.asymm hswo.le_trans
    (resolveNumThreads ExecutionPolicy.kSerial hint)
    (resolveNumThreads_pos _ _) l (List.replicate l.length default)
  have h2 := parallelMergeSortT_correct hswo.asymm hswo.le_trans
    (resolveNumThreads ExecutionPolicy.kParallel hint')
    (resolveNumThreads_pos _ _) l (List.replicate l.length default)
  rw [parallelSort_eq, parallelSort_eq]
  haveI : IsAntisymm α (fun u v => cmp v u = false) :=
    ⟨fun a b hab hba => hanti a b hba hab⟩
  exact List.eq_of_perm_of_sorted (h1.1.trans h2.1.symm) h1.2 h2.2

/-- Witness for the corrected C5 at a concrete antisymmetric comparator. -/
theorem parallelSort_policy_agree_witness :
    parallelSort finCmp ExecutionPolicy.kSerial 5 ([2, 0, 1] : List (Fin 3)) =
      parallelSort finCmp ExecutionPolicy.kParallel 5 [2, 0, 1] :=
  parallelSort_policy_agree finCmp ⟨by decide, by decide, by decide⟩
    (by decide) 5 5 [2, 0, 1]

theorem parallelRangeForCalls_eq (hint : Nat) (policy : ExecutionPolicy)
    (s e : Nat) (h : s ≤ e) :
    parallelRangeForCalls hint policy s e =
      partitionFrom
        (max (roundDiv (e - s + 1) (resolveNumThreads policy hint)) 1) e
        (resolveNumThreads policy hint - 1) s := by
  unfold parallelRangeForCalls
  rw [if_neg (by omega)]

/-- C3 counterexample: over the empty half-open domain `start = end = 0`
(which the `start > end` early return does not cover), with identity 0 and
combine `(a, b) -> a + b + 1`, the Serial run returns
`combine(identity, identity) = 1` rather than the identity: the gather folds
the combiner over the `numThreads` untouched identity slots. -/
theorem parallelReduce_empty_counterexample :
    parallelReduce 0 ExecutionPolicy.kSerial 0 0 0 (fun _ _ v => v)
      (fun a b => a + b + 1) = 1 ∧
    parallelReduce 0 ExecutionPolicy.kSerial 0 0 0 (fun _ _ v => v)
      (fun a b => a + b + 1) ≠ 0 := by
  constructor <;> decide

/-- C3 corrected: an inverted domain (`start > end`) returns the identity
directly, and an empty half-open domain (`start = end`) launches no task and
returns the `numThreads`-fold combine of identity slots — which equals the
identity provided `combineFn(identity, identity) = identity` (as for any true
identity element), but not for arbitrary combiners, as the counterexample
shows. -/
theorem parallelReduce_empty_identity {V : Type} (hint : Nat)
    (policy : ExecutionPolicy) (s : Nat) (idv : V) (f : Nat → Nat → V → V)
    (red : V → V → V) (hred : red idv idv = idv) :
    parallelReduce hint policy s s idv f red = idv := by
  unfold parallelReduce
  rw [if_neg (by omega)]
  simp only [partitionFrom_of_ge, le_refl, List.map_nil, List.nil_append,
    List.length_nil, Nat.sub_zero]
  exact foldl_replicate_fix red idv hred _

/-- Witness for the corrected C3 at a concrete identity-respecting combine. -/
theorem parallelReduce_empty_identity_witness :
    parallelReduce 5 ExecutionPolicy.kParallel 4 4 0
      (fun a b v => a + b + v) Nat.add = 0 :=
  parallelReduce_empty_identity 5 ExecutionPolicy.kParallel 4 0
    (fun a b v => a + b + v) Nat.add (by decide)

/-- C9: for every non-inverted domain, `parallelReduce` returns the
sequential left fold, seeded with the identity and stepping with
`combineFn(value, accumulator)`, over exactly `numThreads` values in order:
the per-partition values `mapFn(rangeBegin, rangeEnd, identity)` in partition
order (the partitions being exactly those of `parallelRangeFor`, whose loop it
repeats verbatim), followed by one untouched copy of the identity for each of
the `numThreads` worker slots that received no partition. -/
theorem parallelReduce_fold_shape {V : Type} (hint : Nat)
    (policy : ExecutionPolicy) (s e : Nat) (idv : V)
    (f : Nat → Nat → V → V) (red : V → V → V) (h : s ≤ e) :
    parallelReduce hint policy s e idv f red =
      ((parallelRangeForCalls hint policy s e).map (fun p => f p.1 p.2 idv) ++
        List.replicate (resolveNumThreads policy hint -
          (parallelRangeForCalls hint policy s e).length) idv).foldl
        (fun acc v => red v acc) idv ∧
    ((parallelRangeForCalls hint policy s e).map (fun p => f p.1 p.2 idv) ++
        List.replicate (resolveNumThreads policy hint -
          (parallelRangeForCalls hint policy s e).length) idv).length =
      resolveNumThreads policy hint := by
  have hle : (parallelRangeForCalls hint policy s e).length ≤
      resolveNumThreads policy hint := by
    rw [parallelRangeForCalls_eq hint policy s e h]
    have h1 := partitionFrom_length_le
      (max (roundDiv (e - s + 1) (resolveNumThreads policy hint)) 1) e
      (resolveNumThreads policy hint - 1) s
    have h2 := resolveNumThreads_pos policy hint
    omega
  constructor
  · unfold parallelReduce parallelRangeForCalls
    simp only [if_neg (show ¬ s > e by omega)]
  · rw [List.length_append, List.length_map, List.length_replicate]
    omega

/-- Witness for C9 at a concrete domain, hint and reduction. -/
theorem parallelReduce_fold_shape_witness :
    parallelReduce 3 ExecutionPolicy.kParallel 0 10 0
        (fun a b v => a + b + v) Nat.add =
      ((parallelRangeForCalls 3 ExecutionPolicy.kParallel 0 10).map
          (fun p : Nat × Nat => p.1 + p.2 + 0) ++
        List.replicate (resolveNumThreads ExecutionPolicy.kParallel 3 -
          (parallelRangeForCalls 3 ExecutionPolicy.kParallel 0 10).length)
          0).foldl (fun acc v => Nat.add v acc) 0 ∧
    ((parallelRangeForCalls 3 ExecutionPolicy.kParallel 0 10).map
        (fun p : Nat × Nat => p.1 + p.2 + 0) ++
      List.replicate (resolveNumThreads ExecutionPolicy.kParallel 3 -
        (parallelRangeForCalls 3 ExecutionPolicy.kParallel 0 10).length)
        0).length = resolveNumThreads ExecutionPolicy.kParallel 3 :=
  parallelReduce_fold_shape 3 ExecutionPolicy.kParallel 0 10 0
    (fun a b v => a + b + v) Nat.add (by decide)

/-- C6: for every domain with `start ≤ end` and every hint/policy, the
sub-range sequence passed to the callable by `parallelRangeFor` decomposes the
domain contiguously (each nonempty sub-range begins where the previous one
ended, the first at `start`, the last ending exactly at `end`), is ordered and
pairwise disjoint, unions to exactly the half-open domain, contains at most
`numThreads` sub-ranges, and is empty exactly when the domain is. -/
theorem parallelRangeFor_partition_spec (hint : Nat)
    (policy : ExecutionPolicy) (s e : Nat) (h : s ≤ e) :
    coversB s e (parallelRangeForCalls hint policy s e) = true ∧
    (parallelRangeForCalls hint policy s e).Pairwise
      (fun p q => p.2 ≤ q.1) ∧
    (∀ i, (∃ p ∈ parallelRangeForCalls hint policy s e,
      p.1 ≤ i ∧ i < p.2) ↔ (s ≤ i ∧ i < e)) ∧
    (parallelRangeForCalls hint policy s e).length ≤
      resolveNumThreads policy hint ∧
    (parallelRangeForCalls hint policy s e = [] ↔ s = e) ∧
    (∀ p, (parallelRangeForCalls hint policy s e).getLast? = some p →
      p.2 = e) := by
  have hunf := parallelRangeForCalls_eq hint policy s e h
  have hcov : coversB s e (parallelRangeForCalls hint policy s e) = true := by
    rw [hunf]
    exact coversB_partitionFrom _ e (Nat.le_max_right _ 1) _ s h
  refine ⟨hcov, coversB_pairwise _ s e hcov, coversB_mem_iff _ s e hcov, ?_,
    coversB_nil_iff _ s e hcov, coversB_getLast _ s e hcov⟩
  rw [hunf]
  have h1 := partitionFrom_length_le
    (max (roundDiv (e - s + 1) (resolveNumThreads policy hint)) 1) e
    (resolveNumThreads policy hint - 1) s
  have h2 := resolveNumThreads_pos policy hint
  omega

/-- Witness for C6 at a concrete hint and domain. -/
theorem parallelRangeFor_partition_spec_witness :
    coversB 0 10 (parallelRangeForCalls 3 ExecutionPolicy.kParallel 0 10) =
      true ∧
    (parallelRangeForCalls 3 ExecutionPolicy.kParallel 0 10).Pairwise
      (fun p q => p.2 ≤ q.1) ∧
    (∀ i, (∃ p ∈ parallelRangeForCalls 3 ExecutionPolicy.kParallel 0 10,
      p.1 ≤ i ∧ i < p.2) ↔ (0 ≤ i ∧ i < 10)) ∧
    (parallelRangeForCalls 3 ExecutionPolicy.kParallel 0 10).length ≤
      resolveNumThreads ExecutionPolicy.kParallel 3 ∧
    (parallelRangeForCalls 3 ExecutionPolicy.kParallel 0 10 = [] ↔
      (0 : Nat) = 10) ∧
    (∀ p, (parallelRangeForCalls 3 ExecutionPolicy.kParallel 0 10).getLast? =
      some p → p.2 = 10) :=
  parallelRangeFor_partition_spec 3 ExecutionPolicy.kParallel 0 10 (by decide)

/-- C7: for every pair `(start, end)`, both policies and any hint (including
0 and 1, which the per-index loop never consults), the per-index
`parallelFor` invokes its callable exactly once on every index of the
half-open domain and on no other index; in particular it makes `end - start`
invocations, which is zero whenever `start ≥ end`. -/
theorem parallelFor_visits_each_once (hint : Nat) (policy : ExecutionPolicy)
    (s e i : Nat) :
    (parallelForCalls hint policy s e).count i =
      (if s ≤ i ∧ i < e then 1 else 0) ∧
    (parallelForCalls hint policy s e).length = e - s := by
  unfold parallelForCalls
  by_cases h : s > e
  · rw [if_pos h]
    constructor
    · rw [if_neg (by omega)]
      simp
    · simp
      omega
  · rw [if_neg h]
    rw [forRange_eq (e - s) s e rfl]
    constructor
    · by_cases hin : s ≤ i ∧ i < e
      · rw [if_pos hin]
        refine List.count_eq_one_of_mem (List.nodup_range' _ _) ?_
        rw [List.mem_range'_1]
        omega
      · rw [if_neg hin]
        refine List.count_eq_zero_of_not_mem ?_
        rw [List.mem_range'_1]
        omega
    · rw [List.length_range']

/-- C8: every inverted-domain entry point is a silent no-op: `parallelFor`
and `parallelRangeFor` with `start > end` invoke their callable on nothing,
`parallelFill` with `end - begin ≤ 0` leaves the container untouched, and
`parallelSort` with `end < begin` leaves the container untouched. -/
theorem degenerate_ranges_noop {α : Type} [Inhabited α] (hint : Nat)
    (policy : ExecutionPolicy) :
    (∀ s e : Nat, e < s → parallelForCalls hint policy s e = []) ∧
    (∀ s e : Nat, e < s → parallelRangeForCalls hint policy s e = []) ∧
    (∀ (arr : List α) (b eo : Nat) (v : α), (eo : Int) - (b : Int) ≤ 0 →
      parallelFill hint policy arr b eo v = arr) ∧
    (∀ (arr : List α) (b eo : Nat) (cmp : α → α → Bool), eo < b →
      parallelSortRange cmp policy hint arr b eo = arr) := by
  refine ⟨?_, ?_, ?_, ?_⟩
  · intro s e h
    unfold parallelForCalls
    rw [if_pos (by omega)]
  · intro s e h
    unfold parallelRangeForCalls
    rw [if_pos (by omega)]
  · intro arr b eo v h
    unfold parallelFill
    rw [if_pos h]
  · intro arr b eo cmp h
    unfold parallelSortRange
    rw [if_pos h]

/-- Witness for C8 at concrete inverted domains. -/
theorem degenerate_ranges_noop_witness :
    parallelForCalls 0 ExecutionPolicy.kSerial 3 1 = [] ∧
    parallelRangeForCalls 0 ExecutionPolicy.kSerial 3 1 = [] ∧
    parallelFill 0 ExecutionPolicy.kSerial [7] 1 0 9 = [7] ∧
    parallelSortRange pairCmp ExecutionPolicy.kSerial 0 [(1, 1)] 2 0 =
      [(1, 1)] :=
  ⟨(degenerate_ranges_noop (α := Nat) 0 ExecutionPolicy.kSerial).1 3 1
      (by decide),
   (degenerate_ranges_noop (α := Nat) 0 ExecutionPolicy.kSerial).2.1 3 1
      (by decide),
   (degenerate_ranges_noop (α := Nat) 0 ExecutionPolicy.kSerial).2.2.1 [7] 1 0
      9 (by decide),
   (degenerate_ranges_noop (α := Nat × Nat) 0 ExecutionPolicy.kSerial).2.2.2
      [(1, 1)] 2 0 pairCmp (by decide)⟩

end PbsParallel
